import Mathlib

/-! freedom-metal: the console `_read` shim and the CPU capability dispatch layer

A shallow embedding of `gloss/sys_read.c` and of the inline wrappers of
`mee/cpu.h`, with the properties the design document states about them.

Conventions of the embedding

* `int` values are `Int`; `size_t` values are `Nat`; the conversion of a
  `size_t` count to the `ssize_t` return type is written out
  (`ssize_of_size`), the width of the two types being a field of `Libc`.
* memory is a map from addresses to bytes (`0 .. 255`), a `char` store keeps
  the low eight bits of the stored `int`.
* a null pointer in a table or handle is `none`; a call through it has no
  defined result, so the wrappers return `Option`.
-/

/-! ## Part 1: `gloss/sys_read.c` -/

/-- What `sys_read.c` takes from `<unistd.h>`, `<errno.h>` and `<sys/types.h>`:
the two constants it names and the bit width shared by `size_t` and `ssize_t`. -/
structure Libc where
  STDIN_FILENO : Int
  ENOSYS : Int
  size_bits : Nat

/-- The state `_read` acts on: the characters the terminal delivers, in order
(`tty k` is what the `k`-th call of `metal_tty_getc` stores), the number of
characters taken so far, byte-addressed memory and `errno`. -/
structure Machine where
  tty : Nat → Int
  taken : Nat
  mem : Nat → Nat
  errno : Int

/-- Conversion of a `size_t` value to `ssize_t` (two's complement, same width):
values up to `SSIZE_MAX` are kept, larger ones wrap to negative. -/
def ssize_of_size (bits n : Nat) : Int :=
  if n % 2 ^ bits < 2 ^ (bits - 1) then ((n % 2 ^ bits : Nat) : Int)
  else ((n % 2 ^ bits : Nat) : Int) - ((2 ^ bits : Nat) : Int)

/-- The cast `(char)c` of an `int`, as the byte that reaches memory. -/
def char_of_int (c : Int) : Nat := (c % 256).toNat

/-- Modelled from the spec: `metal_tty_getc` is declared in `<metal/tty.h>`, which
is not among the sources. It is the "single blocking read operation over one
fixed input stream" that "returns one character at a time": it hands over the
next character of the stream and advances. -/
def metal_tty_getc (m : Machine) : Int × Machine :=
  (m.tty m.taken, { m with taken := m.taken + 1 })

/-- The store `*(bptr + i) = (char)c`. -/
def store_char (m : Machine) (addr : Nat) (c : Int) : Machine :=
  { m with mem := fun a => if a = addr then char_of_int c else m.mem a }

/-- The loop `for (i = 0; i < len; ++i) { ... }` of `_read`, entered at counter
`i` with `left = len - i`; the loop test `i < len` is `left ≠ 0`. The result is
the `size_t` value handed to `return` and the state reached. -/
def read_loop (bptr : Nat) : Nat → Nat → Machine → Nat × Machine
  | 0, i, m => (i, m)
  | left + 1, i, m =>
    let g := metal_tty_getc m
    let c : Int := if g.1 = 13 then 10 else g.1
    let m2 := store_char g.2 (bptr + i) c
    if c = 10 then (i + 1, m2) else read_loop bptr left (i + 1) m2

/-- The function `_read(file, ptr, len)` of `gloss/sys_read.c`: the value
returned and the state left behind. -/
def _read (L : Libc) (file : Int) (ptr : Nat) (len : Nat) (m : Machine) : Int × Machine :=
  if file ≠ L.STDIN_FILENO then
    (-1, { m with errno := L.ENOSYS })
  else
    let r := read_loop ptr len 0 m
    (ssize_of_size L.size_bits r.1, r.2)

/-- A 32-bit newlib target (RV32): descriptor 0, `ENOSYS = 88`. -/
def rv32 : Libc := { STDIN_FILENO := 0, ENOSYS := 88, size_bits := 32 }

/-- The terminal delivering the characters of a list, then zeros. -/
def tty_of (s : List Int) : Nat → Int := fun k => s.getD k 0

/-- A fresh machine with the given terminal input and zeroed memory. -/
def boot (s : List Int) : Machine :=
  { tty := tty_of s, taken := 0, mem := fun _ => 0, errno := 0 }

/-- A terminal that delivers the letter `a` (97) for ever, on a zeroed machine. -/
def endless : Machine :=
  { tty := fun _ => 97, taken := 0, mem := fun _ => 0, errno := 0 }

/-- A terminal that delivers `2^31 - 1` letters `a` and then a newline, on a
zeroed machine. -/
def long_line : Machine :=
  { tty := fun k => if k = 2147483647 then 10 else 97, taken := 0, mem := fun _ => 0,
    errno := 0 }

/-- The line terminators `_read` stops at: carriage return (13) and newline (10). -/
def is_term (c : Int) : Prop := c = 13 ∨ c = 10

instance (c : Int) : Decidable (is_term c) := by unfold is_term; infer_instance

/-- The translation `if (c == '\r') c = '\n';`. -/
def cr_to_nl (c : Int) : Int := if c = 13 then 10 else c

/-- Number of characters one pass of the loop takes from the stream `s`, starting
at index `start`, when at most `left` may be taken (used to describe `read_loop`). -/
def scan (s : Nat → Int) : Nat → Nat → Nat
  | _, 0 => 0
  | start, left + 1 => if is_term (s start) then 1 else 1 + scan s (start + 1) left

/-- The bytes `buf[0 .. r-1]` a caller holds after a call that returned `r`
(nothing when `r` is not positive). -/
def block (m : Machine) (ptr : Nat) (r : Int) : List Nat :=
  (List.range r.toNat).map (fun j => m.mem (ptr + j))

/-- Successive calls `_read(STDIN_FILENO, ptr, len)`, `n` of them, each on the
state the previous one left: the blocks received, in order, and the final state. -/
def read_calls (L : Libc) (ptr len : Nat) : Nat → Machine → List (List Nat) × Machine
  | 0, m => ([], m)
  | n + 1, m =>
    let r := _read L L.STDIN_FILENO ptr len m
    let rest := read_calls L ptr len n r.2
    (block r.2 ptr r.1 :: rest.1, rest.2)

/-- The values returned by the same `n` successive calls
`_read(STDIN_FILENO, ptr, len)`, in order. -/
def read_results (L : Libc) (ptr len : Nat) : Nat → Machine → List Int
  | 0, _ => []
  | n + 1, m =>
    let r := _read L L.STDIN_FILENO ptr len m
    r.1 :: read_results L ptr len n r.2

/-- A machine with the given terminal input whose memory holds `0xAA` (170)
everywhere, so that a store of any other byte, a zero included, shows. -/
def primed (s : List Int) : Machine :=
  { tty := tty_of s, taken := 0, mem := fun _ => 170, errno := 0 }

/-- A byte with carriage return replaced by newline. -/
def byte_cr_to_nl (b : Nat) : Nat := if b = 13 then 10 else b

/-! ## Part 2: `mee/cpu.h`

Pointers are addresses (`Nat`); `W` is the state of the world the
implementation routines act on, so a routine of C type `int (*)(struct
mee_cpu *, int)` is a function `Nat → Int → W → Int × W`. -/

/-- The table `struct mee_cpu_vtable`: sixteen function pointers, `none` for a
null one. An exception handler is passed as the address of its code. -/
structure mee_cpu_vtable (W : Type) where
  timer_get : Option (Nat → Int → Nat → W → Int × W)
  timebase_get : Option (Nat → Nat → W → Int × W)
  mtime_get : Option (Nat → W → Nat × W)
  mtimecmp_set : Option (Nat → Nat → W → Int × W)
  tmr_controller_interrupt : Option (Nat → W → Nat × W)
  get_tmr_interrupt_id : Option (Nat → W → Int × W)
  sw_controller_interrupt : Option (Nat → W → Nat × W)
  get_sw_interrupt_id : Option (Nat → W → Int × W)
  set_sw_ipi : Option (Nat → Int → W → Int × W)
  clear_sw_ipi : Option (Nat → Int → W → Int × W)
  get_msip : Option (Nat → Int → W → Int × W)
  controller_interrupt : Option (Nat → W → Nat × W)
  exception_register : Option (Nat → Int → Nat → W → Int × W)
  get_ilen : Option (Nat → Nat → W → Int × W)
  get_epc : Option (Nat → W → Nat × W)
  set_epc : Option (Nat → Nat → W → Int × W)

/-- The handle `struct mee_cpu`: a pointer to its table (`none` when null). -/
structure mee_cpu (W : Type) where
  vtable : Option (mee_cpu_vtable W)

/-- The handles in memory: what `struct mee_cpu` object, if any, an address holds. -/
abbrev Handles (W : Type) := Nat → Option (mee_cpu W)

/-- The load `cpu->vtable`: defined when `cpu` points at a handle whose table
pointer is not null. -/
def vtable_at {W : Type} (H : Handles W) (cpu : Nat) : Option (mee_cpu_vtable W) :=
  match H cpu with
  | none => none
  | some h => h.vtable

/-- `mee_cpu_get_timer`: `return cpu->vtable->timer_get(cpu, hartid, tv);` -/
def mee_cpu_get_timer {W : Type} (H : Handles W) (cpu : Nat) (hartid : Int) (tv : Nat)
    (w : W) : Option (Int × W) :=
  match vtable_at H cpu with
  | none => none
  | some vt =>
    match vt.timer_get with
    | none => none
    | some f => some (f cpu hartid tv w)

/-- `mee_cpu_get_timebase`: `return cpu->vtable->timebase_get(cpu, tb);` -/
def mee_cpu_get_timebase {W : Type} (H : Handles W) (cpu : Nat) (tb : Nat)
    (w : W) : Option (Int × W) :=
  match vtable_at H cpu with
  | none => none
  | some vt =>
    match vt.timebase_get with
    | none => none
    | some f => some (f cpu tb w)

/-- `mee_cpu_get_mtime`: `return cpu->vtable->mtime_get(cpu);` -/
def mee_cpu_get_mtime {W : Type} (H : Handles W) (cpu : Nat) (w : W) : Option (Nat × W) :=
  match vtable_at H cpu with
  | none => none
  | some vt =>
    match vt.mtime_get with
    | none => none
    | some f => some (f cpu w)

/-- `mee_cpu_set_mtimecmp`: `return cpu->vtable->mtimecmp_set(cpu, time);` -/
def mee_cpu_set_mtimecmp {W : Type} (H : Handles W) (cpu : Nat) (time : Nat)
    (w : W) : Option (Int × W) :=
  match vtable_at H cpu with
  | none => none
  | some vt =>
    match vt.mtimecmp_set with
    | none => none
    | some f => some (f cpu time w)

/-- `mee_cpu_timer_interrupt_controller`:
`return cpu->vtable->tmr_controller_interrupt(cpu);` -/
def mee_cpu_timer_interrupt_controller {W : Type} (H : Handles W) (cpu : Nat)
    (w : W) : Option (Nat × W) :=
  match vtable_at H cpu with
  | none => none
  | some vt =>
    match vt.tmr_controller_interrupt with
    | none => none
    | some f => some (f cpu w)

/-- `mee_cpu_timer_get_interrupt_id`: `return cpu->vtable->get_tmr_interrupt_id(cpu);` -/
def mee_cpu_timer_get_interrupt_id {W : Type} (H : Handles W) (cpu : Nat)
    (w : W) : Option (Int × W) :=
  match vtable_at H cpu with
  | none => none
  | some vt =>
    match vt.get_tmr_interrupt_id with
    | none => none
    | some f => some (f cpu w)

/-- `mee_cpu_software_interrupt_controller`:
`return cpu->vtable->sw_controller_interrupt(cpu);` -/
def mee_cpu_software_interrupt_controller {W : Type} (H : Handles W) (cpu : Nat)
    (w : W) : Option (Nat × W) :=
  match vtable_at H cpu with
  | none => none
  | some vt =>
    match vt.sw_controller_interrupt with
    | none => none
    | some f => some (f cpu w)

/-- `mee_cpu_software_get_interrupt_id`: `return cpu->vtable->get_sw_interrupt_id(cpu);` -/
def mee_cpu_software_get_interrupt_id {W : Type} (H : Handles W) (cpu : Nat)
    (w : W) : Option (Int × W) :=
  match vtable_at H cpu with
  | none => none
  | some vt =>
    match vt.get_sw_interrupt_id with
    | none => none
    | some f => some (f cpu w)

/-- `mee_cpu_software_set_ipi`: `return cpu->vtable->set_sw_ipi(cpu, hartid);` -/
def mee_cpu_software_set_ipi {W : Type} (H : Handles W) (cpu : Nat) (hartid : Int)
    (w : W) : Option (Int × W) :=
  match vtable_at H cpu with
  | none => none
  | some vt =>
    match vt.set_sw_ipi with
    | none => none
    | some f => some (f cpu hartid w)

/-- `mee_cpu_software_clear_ipi`: `return cpu->vtable->clear_sw_ipi(cpu, hartid);` -/
def mee_cpu_software_clear_ipi {W : Type} (H : Handles W) (cpu : Nat) (hartid : Int)
    (w : W) : Option (Int × W) :=
  match vtable_at H cpu with
  | none => none
  | some vt =>
    match vt.clear_sw_ipi with
    | none => none
    | some f => some (f cpu hartid w)

/-- `mee_cpu_get_msip`: `return cpu->vtable->get_msip(cpu, hartid);` -/
def mee_cpu_get_msip {W : Type} (H : Handles W) (cpu : Nat) (hartid : Int)
    (w : W) : Option (Int × W) :=
  match vtable_at H cpu with
  | none => none
  | some vt =>
    match vt.get_msip with
    | none => none
    | some f => some (f cpu hartid w)

/-- `mee_cpu_interrupt_controller`: `return cpu->vtable->controller_interrupt(cpu);` -/
def mee_cpu_interrupt_controller {W : Type} (H : Handles W) (cpu : Nat)
    (w : W) : Option (Nat × W) :=
  match vtable_at H cpu with
  | none => none
  | some vt =>
    match vt.controller_interrupt with
    | none => none
    | some f => some (f cpu w)

/-- `mee_cpu_exception_register`:
`return cpu->vtable->exception_register(cpu, ecode, handler);` -/
def mee_cpu_exception_register {W : Type} (H : Handles W) (cpu : Nat) (ecode : Int)
    (handler : Nat) (w : W) : Option (Int × W) :=
  match vtable_at H cpu with
  | none => none
  | some vt =>
    match vt.exception_register with
    | none => none
    | some f => some (f cpu ecode handler w)

/-- `mee_cpu_get_instruction_length`: `return cpu->vtable->get_ilen(cpu, epc);` -/
def mee_cpu_get_instruction_length {W : Type} (H : Handles W) (cpu : Nat) (epc : Nat)
    (w : W) : Option (Int × W) :=
  match vtable_at H cpu with
  | none => none
  | some vt =>
    match vt.get_ilen with
    | none => none
    | some f => some (f cpu epc w)

/-- `mee_cpu_get_exception_pc`: `return cpu->vtable->get_epc(cpu);` -/
def mee_cpu_get_exception_pc {W : Type} (H : Handles W) (cpu : Nat)
    (w : W) : Option (Nat × W) :=
  match vtable_at H cpu with
  | none => none
  | some vt =>
    match vt.get_epc with
    | none => none
    | some f => some (f cpu w)

/-- `mee_cpu_set_exception_pc`: `return cpu->vtable->set_epc(cpu, epc);` -/
def mee_cpu_set_exception_pc {W : Type} (H : Handles W) (cpu : Nat) (epc : Nat)
    (w : W) : Option (Int × W) :=
  match vtable_at H cpu with
  | none => none
  | some vt =>
    match vt.set_epc with
    | none => none
    | some f => some (f cpu epc w)

/-- All sixteen bindings of a table are populated (no null function pointer). -/
def populated {W : Type} (vt : mee_cpu_vtable W) : Prop :=
  vt.timer_get.isSome ∧ vt.timebase_get.isSome ∧ vt.mtime_get.isSome ∧
  vt.mtimecmp_set.isSome ∧ vt.tmr_controller_interrupt.isSome ∧
  vt.get_tmr_interrupt_id.isSome ∧ vt.sw_controller_interrupt.isSome ∧
  vt.get_sw_interrupt_id.isSome ∧ vt.set_sw_ipi.isSome ∧ vt.clear_sw_ipi.isSome ∧
  vt.get_msip.isSome ∧ vt.controller_interrupt.isSome ∧ vt.exception_register.isSome ∧
  vt.get_ilen.isSome ∧ vt.get_epc.isSome ∧ vt.set_epc.isSome

/-- The process-wide state behind `mee_cpu_get`: the table of handle addresses,
indexed by hart id, and the handles themselves. -/
structure Board (W : Type) where
  harts : List Nat
  handles : Handles W

/-- Modelled from the spec: `mee_cpu_get` is only declared in `mee/cpu.h`, its body
is not among the sources. The design document makes it "a registry lookup keyed
on hart id" in "a singleton table indexed by hart id", returning "a long-lived
reference to process-wide state, not allocated per call"; an id outside the
table is a contract violation with no specified result (`none`). The board is
returned with the handle so that successive calls can be chained. -/
def mee_cpu_get {W : Type} (b : Board W) (hartid : Int) : Option Nat × Board W :=
  (if 0 ≤ hartid then b.harts.get? hartid.toNat else none, b)

/-- A hart id is valid on a board when it indexes the table of harts. -/
def valid_hart {W : Type} (b : Board W) (hartid : Int) : Prop :=
  0 ≤ hartid ∧ hartid.toNat < b.harts.length

/-- A sample table over the world `Nat` (a counter of calls made), every binding
populated, used to exercise the wrappers. -/
def sample_vtable : mee_cpu_vtable Nat :=
  { timer_get := some (fun cpu hartid tv w => (hartid + tv + cpu, w + 1))
    timebase_get := some (fun cpu tb w => (tb + cpu, w + 2))
    mtime_get := some (fun cpu w => (cpu + w, w + 3))
    mtimecmp_set := some (fun _ time w => (time, w + 4))
    tmr_controller_interrupt := some (fun cpu w => (cpu + 8, w + 5))
    get_tmr_interrupt_id := some (fun _ w => (7, w + 6))
    sw_controller_interrupt := some (fun cpu w => (cpu + 16, w + 7))
    get_sw_interrupt_id := some (fun _ w => (3, w + 8))
    set_sw_ipi := some (fun _ hartid w => (hartid, w + 9))
    clear_sw_ipi := some (fun _ hartid w => (hartid + 1, w + 10))
    get_msip := some (fun _ hartid w => (hartid + 2, w + 11))
    controller_interrupt := some (fun cpu w => (cpu + 24, w + 12))
    exception_register := some (fun _ ecode handler w => (ecode + handler, w + 13))
    get_ilen := some (fun _ epc w => (if epc % 4 = 3 then 4 else 2, w + 14))
    get_epc := some (fun cpu w => (cpu + w, w + 15))
    set_epc := some (fun _ epc w => (epc, w + 16)) }

/-- Sample handles: one handle at address 4096 bound to `sample_vtable`. -/
def sample_handles : Handles Nat :=
  fun a => if a = 4096 then some { vtable := some sample_vtable } else none

/-- Sample board: harts 0 and 1, both served by the handle at 4096. -/
def sample_board : Board Nat := { harts := [4096, 4096], handles := sample_handles }

/-! ## Lemmas on the read loop -/

theorem cr_to_nl_eq_ten (c : Int) : cr_to_nl c = 10 ↔ is_term c := by
  unfold cr_to_nl is_term
  by_cases h : c = 13
  · simp [h]
  · simp [h]

theorem read_loop_eq (bptr : Nat) (left i : Nat) (m : Machine) :
    read_loop bptr left i m =
      (i + scan m.tty m.taken left,
       { m with
         taken := m.taken + scan m.tty m.taken left
         mem := fun a =>
           if bptr + i ≤ a ∧ a < bptr + i + scan m.tty m.taken left then
             char_of_int (cr_to_nl (m.tty (m.taken + (a - (bptr + i)))))
           else m.mem a }) := by
  induction left generalizing i m with
  | zero =>
    cases m with
    | mk tty taken mem errno =>
      simp only [read_loop, scan, Nat.add_zero]
      congr 2
      funext a
      have h : ¬ (bptr + i ≤ a ∧ a < bptr + i) := by omega
      simp only [if_neg h]
  | succ n ih =>
    by_cases ht : is_term (m.tty m.taken)
    · have h10 : cr_to_nl (m.tty m.taken) = 10 := (cr_to_nl_eq_ten _).2 ht
      have h10b : (if m.tty m.taken = 13 then (10 : Int) else m.tty m.taken) = 10 := h10
      simp only [read_loop, metal_tty_getc, store_char, scan, if_pos ht, h10b, if_true]
      congr 2
      funext a
      by_cases ha : a = bptr + i
      · subst ha
        simp [h10]
      · have : ¬ (bptr + i ≤ a ∧ a < bptr + i + 1) := by omega
        simp [ha, this]
    · have hne : cr_to_nl (m.tty m.taken) ≠ 10 := fun h => ht ((cr_to_nl_eq_ten _).1 h)
      have hneb : ¬ ((if m.tty m.taken = 13 then (10 : Int) else m.tty m.taken) = 10) := hne
      simp only [read_loop, metal_tty_getc, store_char, scan, if_neg ht, if_neg hneb]
      rw [ih]
      simp only []
      refine Prod.ext (by simp; omega) ?_
      simp only []
      congr 1
      · omega
      · funext a
        by_cases ha : a = bptr + i
        · subst ha
          have h1 : ¬ (bptr + (i + 1) ≤ bptr + i ∧ bptr + i < bptr + (i + 1) + scan m.tty (m.taken + 1) n) := by omega
          have h2 : bptr + i ≤ bptr + i ∧ bptr + i < bptr + i + (1 + scan m.tty (m.taken + 1) n) := by omega
          simp only [if_neg h1, if_pos h2, if_true, Nat.sub_self, Nat.add_zero]
          rfl
        · by_cases hin : bptr + (i + 1) ≤ a ∧ a < bptr + (i + 1) + scan m.tty (m.taken + 1) n
          · have h2 : bptr + i ≤ a ∧ a < bptr + i + (1 + scan m.tty (m.taken + 1) n) := by omega
            have h3 : m.taken + 1 + (a - (bptr + (i + 1))) = m.taken + (a - (bptr + i)) := by omega
            simp only [if_pos hin, if_pos h2, h3]
          · have h2 : ¬ (bptr + i ≤ a ∧ a < bptr + i + (1 + scan m.tty (m.taken + 1) n)) := by omega
            simp only [if_neg hin, if_neg h2, if_neg ha]

theorem scan_le (s : Nat → Int) (start left : Nat) : scan s start left ≤ left := by
  induction left generalizing start with
  | zero => simp [scan]
  | succ n ih =>
    unfold scan
    split
    · omega
    · have := ih (start + 1)
      omega

theorem scan_pos (s : Nat → Int) (start left : Nat) (h : 0 < left) :
    0 < scan s start left := by
  cases left with
  | zero => omega
  | succ n =>
    unfold scan
    split <;> omega

theorem scan_no_term_before (s : Nat → Int) (start left j : Nat)
    (h : j + 1 < scan s start left) : ¬ is_term (s (start + j)) := by
  induction left generalizing start j with
  | zero => simp [scan] at h
  | succ n ih =>
    unfold scan at h
    by_cases ht : is_term (s start)
    · rw [if_pos ht] at h
      omega
    · rw [if_neg ht] at h
      cases j with
      | zero => simpa using ht
      | succ j =>
        have := ih (start + 1) j (by omega)
        have e : start + 1 + j = start + (j + 1) := by omega
        rw [e] at this
        exact this

theorem scan_early (s : Nat → Int) (start left : Nat) (h : scan s start left < left) :
    is_term (s (start + (scan s start left - 1))) := by
  induction left generalizing start with
  | zero => omega
  | succ n ih =>
    unfold scan at h ⊢
    by_cases ht : is_term (s start)
    · simp only [if_pos ht]
      simpa using ht
    · simp only [if_neg ht] at h ⊢
      have h2 : scan s (start + 1) n < n := by omega
      have h3 := ih (start + 1) h2
      have hp : 0 < scan s (start + 1) n := scan_pos s (start + 1) n (by omega)
      have e : start + (1 + scan s (start + 1) n - 1) = start + 1 + (scan s (start + 1) n - 1) := by
        omega
      rw [e]
      exact h3

theorem scan_full (s : Nat → Int) (start left : Nat)
    (h : ∀ j, j < left → ¬ is_term (s (start + j))) : scan s start left = left := by
  by_contra hne
  have hle := scan_le s start left
  have hlt : scan s start left < left := by omega
  have ht := scan_early s start left hlt
  have hp : 0 < scan s start left := scan_pos s start left (by omega)
  exact h (scan s start left - 1) (by omega) ht

theorem scan_least (s : Nat → Int) (start left k : Nat) (hk : k < left)
    (ht : is_term (s (start + k))) (hmin : ∀ j, j < k → ¬ is_term (s (start + j))) :
    scan s start left = k + 1 := by
  have hle := scan_le s start left
  have hp : 0 < scan s start left := scan_pos s start left (by omega)
  by_contra hne
  rcases Nat.lt_or_gt_of_ne hne with h | h
  · have hlt : scan s start left < left := by omega
    exact hmin (scan s start left - 1) (by omega) (scan_early s start left hlt)
  · exact scan_no_term_before s start left k h ht

/-! ## `_read` on the input stream, in closed form -/

theorem read_stdin_eq (L : Libc) (ptr len : Nat) (m : Machine) :
    _read L L.STDIN_FILENO ptr len m =
      (ssize_of_size L.size_bits (scan m.tty m.taken len),
       { m with
         taken := m.taken + scan m.tty m.taken len
         mem := fun a =>
           if ptr ≤ a ∧ a < ptr + scan m.tty m.taken len then
             char_of_int (cr_to_nl (m.tty (m.taken + (a - ptr))))
           else m.mem a }) := by
  unfold _read
  simp only [ne_eq, not_true_eq_false, if_false, read_loop_eq, Nat.add_zero, Nat.zero_add]

theorem ssize_of_size_small (bits n : Nat) (h : n < 2 ^ (bits - 1)) :
    ssize_of_size bits n = (n : Int) := by
  have hle : 2 ^ (bits - 1) ≤ 2 ^ bits := Nat.pow_le_pow_right (by decide) (Nat.sub_le bits 1)
  have hmod : n % 2 ^ bits = n := Nat.mod_eq_of_lt (by omega)
  unfold ssize_of_size
  rw [hmod, if_pos h]

theorem ssize_of_size_le (bits n : Nat) : ssize_of_size bits n ≤ (n : Int) := by
  have hmod : n % 2 ^ bits ≤ n := Nat.mod_le n (2 ^ bits)
  unfold ssize_of_size
  split <;> omega

theorem ssize_of_size_nonneg (bits n : Nat) (hn : n < 2 ^ bits)
    (h0 : 0 ≤ ssize_of_size bits n) :
    n < 2 ^ (bits - 1) ∧ ssize_of_size bits n = (n : Int) := by
  have hmod : n % 2 ^ bits = n := Nat.mod_eq_of_lt hn
  by_cases hlt : n < 2 ^ (bits - 1)
  · exact ⟨hlt, ssize_of_size_small bits n hlt⟩
  · exfalso
    unfold ssize_of_size at h0
    rw [hmod, if_neg hlt] at h0
    have : (n : Int) < ((2 ^ bits : Nat) : Int) := by exact_mod_cast hn
    omega

theorem char_of_int_byte (c : Int) (h0 : 0 ≤ c) (h1 : c < 256) : (char_of_int c : Int) = c := by
  unfold char_of_int
  rw [Int.emod_eq_of_lt h0 h1]
  exact Int.toNat_of_nonneg h0

theorem tty_of_sample_bytes (j : Nat) :
    0 ≤ tty_of [97, 98, 13, 99, 100] j ∧ tty_of [97, 98, 13, 99, 100] j < 256 := by
  unfold tty_of
  rcases j with _ | _ | _ | _ | _ | j <;> simp

theorem scan_endless (len : Nat) : scan endless.tty endless.taken len = len := by
  apply scan_full
  intro j _
  simp [endless, is_term]

theorem scan_long_line : scan long_line.tty long_line.taken 2147483648 = 2147483648 := by
  have h := scan_least long_line.tty long_line.taken 2147483648 2147483647 (by decide)
    (by simp [long_line, is_term])
    (by
      intro j hj
      have hne : ¬ (j = 2147483647) := by omega
      simp [long_line, is_term, hne])
  simpa using h

theorem ssize_wraps_32 : ssize_of_size 32 2147483648 = -2147483648 := by
  decide

/-! ## The claims about `_read` -/

/-- C3: a call of `_read` on any descriptor other than `STDIN_FILENO`, with any
buffer and any `len`, returns -1 and sets `errno` to `ENOSYS`; it takes no
character from the terminal and leaves all of memory, the buffer included, as it
was. -/
theorem read_other_descriptor_enosys (L : Libc) (file : Int) (ptr len : Nat) (m : Machine)
    (hfile : file ≠ L.STDIN_FILENO) :
    (_read L file ptr len m).1 = -1 ∧
    (_read L file ptr len m).2.errno = L.ENOSYS ∧
    (_read L file ptr len m).2.taken = m.taken ∧
    (_read L file ptr len m).2.tty = m.tty ∧
    (_read L file ptr len m).2.mem = m.mem := by
  unfold _read
  simp [hfile]

theorem read_other_descriptor_enosys_witness :
    (_read rv32 1 100 10 (boot [97, 98, 13])).1 = -1 ∧
    (_read rv32 1 100 10 (boot [97, 98, 13])).2.errno = rv32.ENOSYS ∧
    (_read rv32 1 100 10 (boot [97, 98, 13])).2.taken = (boot [97, 98, 13]).taken ∧
    (_read rv32 1 100 10 (boot [97, 98, 13])).2.tty = (boot [97, 98, 13]).tty ∧
    (_read rv32 1 100 10 (boot [97, 98, 13])).2.mem = (boot [97, 98, 13]).mem :=
  read_other_descriptor_enosys rv32 1 100 10 (boot [97, 98, 13]) (by decide)

/-- C2, as stated, fails: on a 32-bit target, with `2^31 - 1` letters followed by
a newline and `len = 2^31`, the first terminator is at index `k = 2^31 - 1 < len`,
yet `_read` returns `-2^31`, not `k + 1`. -/
theorem read_first_terminator_counterexample :
    is_term (long_line.tty (long_line.taken + 2147483647)) ∧
    (∀ j, j < 2147483647 → ¬ is_term (long_line.tty (long_line.taken + j))) ∧
    2147483647 < 2147483648 ∧
    (_read rv32 rv32.STDIN_FILENO 0 2147483648 long_line).1 = -2147483648 ∧
    (_read rv32 rv32.STDIN_FILENO 0 2147483648 long_line).1 ≠ ((2147483647 : Nat) : Int) + 1 := by
  have hr : (_read rv32 rv32.STDIN_FILENO 0 2147483648 long_line).1 = -2147483648 := by
    rw [read_stdin_eq, scan_long_line]
    exact ssize_wraps_32
  refine ⟨by simp [long_line, is_term], ?_, by decide, hr, ?_⟩
  · intro j hj
    have hne : ¬ (j = 2147483647) := by omega
    simp [long_line, is_term, hne]
  · rw [hr]
    decide

/-- C2 (amended): for input bytes `s_0, s_1, ...` (the characters still to be
delivered) and a limit `len`, if `k` is the least index with `s_k` a carriage
return or a newline, `k < len` and `k + 1` does not exceed `SSIZE_MAX`, then
`_read(STDIN_FILENO, buf, len)` returns `k + 1`, leaves `buf[i] = s_i` for every
`i < k` and leaves `buf[k]` a newline. -/
theorem read_first_terminator (L : Libc) (ptr len k : Nat) (m : Machine)
    (hbytes : ∀ j, 0 ≤ m.tty j ∧ m.tty j < 256)
    (hterm : is_term (m.tty (m.taken + k)))
    (hleast : ∀ j, j < k → ¬ is_term (m.tty (m.taken + j)))
    (hk : k < len)
    (hfit : k + 1 < 2 ^ (L.size_bits - 1)) :
    (_read L L.STDIN_FILENO ptr len m).1 = (k : Int) + 1 ∧
    (∀ i, i < k →
      (((_read L L.STDIN_FILENO ptr len m).2.mem (ptr + i) : Nat) : Int) = m.tty (m.taken + i)) ∧
    (_read L L.STDIN_FILENO ptr len m).2.mem (ptr + k) = 10 := by
  have hs : scan m.tty m.taken len = k + 1 := scan_least m.tty m.taken len k hk hterm hleast
  rw [read_stdin_eq, hs]
  refine ⟨?_, ?_, ?_⟩
  · simp only
    rw [ssize_of_size_small _ _ hfit]
    push_cast
    rfl
  · intro i hi
    have hin : ptr ≤ ptr + i ∧ ptr + i < ptr + (k + 1) := by omega
    have hnt : ¬ is_term (m.tty (m.taken + i)) := hleast i hi
    have hc : cr_to_nl (m.tty (m.taken + i)) = m.tty (m.taken + i) := by
      unfold cr_to_nl
      rw [if_neg (fun h => hnt (Or.inl h))]
    simp only [if_pos hin, Nat.add_sub_cancel_left, hc]
    exact char_of_int_byte _ (hbytes _).1 (hbytes _).2
  · have hin : ptr ≤ ptr + k ∧ ptr + k < ptr + (k + 1) := by omega
    simp only [if_pos hin, Nat.add_sub_cancel_left, (cr_to_nl_eq_ten _).2 hterm]
    decide

theorem read_first_terminator_witness :
    (_read rv32 rv32.STDIN_FILENO 100 10 (boot [97, 98, 13, 99, 100])).1 = 3 ∧
    (_read rv32 rv32.STDIN_FILENO 100 10 (boot [97, 98, 13, 99, 100])).2.mem 100 = 97 ∧
    (_read rv32 rv32.STDIN_FILENO 100 10 (boot [97, 98, 13, 99, 100])).2.mem 101 = 98 ∧
    (_read rv32 rv32.STDIN_FILENO 100 10 (boot [97, 98, 13, 99, 100])).2.mem 102 = 10 := by
  have h := read_first_terminator rv32 100 10 2 (boot [97, 98, 13, 99, 100])
    tty_of_sample_bytes (by decide)
    (by
      intro j hj
      rcases j with _ | _ | j
      · decide
      · decide
      · omega)
    (by decide) (by decide)
  refine ⟨h.1, ?_, ?_, h.2.2⟩
  · have h0 := h.2.1 0 (by decide)
    have e : (boot [97, 98, 13, 99, 100]).tty ((boot [97, 98, 13, 99, 100]).taken + 0) = 97 := by
      decide
    rw [e] at h0
    exact_mod_cast h0
  · have h1 := h.2.1 1 (by decide)
    have e : (boot [97, 98, 13, 99, 100]).tty ((boot [97, 98, 13, 99, 100]).taken + 1) = 98 := by
      decide
    rw [e] at h1
    exact_mod_cast h1

/-- C4, as stated, fails: on a 32-bit target, with a terminal that only delivers
the letter `a` and `len = 2^31`, none of the first `len` characters is a
terminator, yet `_read` returns `-2^31`, not `len`. -/
theorem read_full_counterexample :
    (∀ j, j < 2147483648 → ¬ is_term (endless.tty (endless.taken + j))) ∧
    (∀ j, 0 ≤ endless.tty j ∧ endless.tty j < 256) ∧
    (_read rv32 rv32.STDIN_FILENO 0 2147483648 endless).1 = -2147483648 ∧
    (_read rv32 rv32.STDIN_FILENO 0 2147483648 endless).1 ≠ ((2147483648 : Nat) : Int) := by
  have hr : (_read rv32 rv32.STDIN_FILENO 0 2147483648 endless).1 = -2147483648 := by
    rw [read_stdin_eq, scan_endless]
    exact ssize_wraps_32
  refine ⟨?_, ?_, hr, ?_⟩
  · intro j _
    simp [endless, is_term]
  · intro j
    simp [endless]
  · rw [hr]
    decide

/-- C4 (amended): for input bytes `s_0, s_1, ...` and a limit `len` that does not
exceed `SSIZE_MAX`, if none of `s_0 .. s_(len-1)` is a carriage return or a
newline, then `_read(STDIN_FILENO, buf, len)` returns `len`, leaves `buf[i] = s_i`
for every `i < len` and has taken `len` characters; with `len = 0` it returns 0
and takes no character from the terminal. -/
theorem read_full (L : Libc) (ptr len : Nat) (m : Machine)
    (hbytes : ∀ j, 0 ≤ m.tty j ∧ m.tty j < 256)
    (hnone : ∀ j, j < len → ¬ is_term (m.tty (m.taken + j)))
    (hfit : len < 2 ^ (L.size_bits - 1)) :
    (_read L L.STDIN_FILENO ptr len m).1 = (len : Int) ∧
    (∀ i, i < len →
      (((_read L L.STDIN_FILENO ptr len m).2.mem (ptr + i) : Nat) : Int) = m.tty (m.taken + i)) ∧
    (_read L L.STDIN_FILENO ptr len m).2.taken = m.taken + len ∧
    (_read L L.STDIN_FILENO ptr 0 m).1 = 0 ∧
    (_read L L.STDIN_FILENO ptr 0 m).2.taken = m.taken := by
  have hs : scan m.tty m.taken len = len := scan_full m.tty m.taken len hnone
  refine ⟨?_, ?_, ?_, ?_, ?_⟩
  · rw [read_stdin_eq, hs]
    exact ssize_of_size_small _ _ hfit
  · intro i hi
    rw [read_stdin_eq, hs]
    have hin : ptr ≤ ptr + i ∧ ptr + i < ptr + len := by omega
    have hnt : ¬ is_term (m.tty (m.taken + i)) := hnone i hi
    have hc : cr_to_nl (m.tty (m.taken + i)) = m.tty (m.taken + i) := by
      unfold cr_to_nl
      rw [if_neg (fun h => hnt (Or.inl h))]
    simp only [if_pos hin, Nat.add_sub_cancel_left, hc]
    exact char_of_int_byte _ (hbytes _).1 (hbytes _).2
  · rw [read_stdin_eq, hs]
  · rw [read_stdin_eq]
    simp only [scan]
    exact ssize_of_size_small _ _ (Nat.pow_pos (by decide))
  · rw [read_stdin_eq]
    simp only [scan, Nat.add_zero]

theorem read_full_witness :
    (_read rv32 rv32.STDIN_FILENO 100 2 (boot [97, 98, 13, 99, 100])).1 = 2 ∧
    (_read rv32 rv32.STDIN_FILENO 100 2 (boot [97, 98, 13, 99, 100])).2.mem 100 = 97 ∧
    (_read rv32 rv32.STDIN_FILENO 100 2 (boot [97, 98, 13, 99, 100])).2.mem 101 = 98 ∧
    (_read rv32 rv32.STDIN_FILENO 100 2 (boot [97, 98, 13, 99, 100])).2.taken = 2 ∧
    (_read rv32 rv32.STDIN_FILENO 100 0 (boot [97, 98, 13, 99, 100])).1 = 0 ∧
    (_read rv32 rv32.STDIN_FILENO 100 0 (boot [97, 98, 13, 99, 100])).2.taken = 0 := by
  have h := read_full rv32 100 2 (boot [97, 98, 13, 99, 100]) tty_of_sample_bytes
    (by
      intro j hj
      rcases j with _ | _ | j
      · decide
      · decide
      · omega)
    (by decide)
  refine ⟨h.1, ?_, ?_, h.2.2.1, h.2.2.2.1, h.2.2.2.2⟩
  · have h0 := h.2.1 0 (by decide)
    have e : (boot [97, 98, 13, 99, 100]).tty ((boot [97, 98, 13, 99, 100]).taken + 0) = 97 := by
      decide
    rw [e] at h0
    exact_mod_cast h0
  · have h1 := h.2.1 1 (by decide)
    have e : (boot [97, 98, 13, 99, 100]).tty ((boot [97, 98, 13, 99, 100]).taken + 1) = 98 := by
      decide
    rw [e] at h1
    exact_mod_cast h1

/-- C6, as stated, fails: on a 32-bit target, with a terminal that only delivers
the letter `a` and `len = 2^31`, the value returned is negative, and buffer
position 0 is written although it is not among positions `0 .. r-1`. -/
theorem read_bounds_counterexample :
    (_read rv32 rv32.STDIN_FILENO 0 2147483648 endless).1 < 0 ∧
    (_read rv32 rv32.STDIN_FILENO 0 2147483648 endless).2.mem (0 + 0) = 97 ∧
    endless.mem (0 + 0) = 0 := by
  refine ⟨?_, ?_, rfl⟩
  · rw [read_stdin_eq, scan_endless]
    have h : ssize_of_size rv32.size_bits 2147483648 = -2147483648 := ssize_wraps_32
    simp only [h]
    decide
  · rw [read_stdin_eq, scan_endless]
    have hin : 0 ≤ 0 + 0 ∧ 0 + 0 < 0 + 2147483648 := by decide
    simp only [if_pos hin]
    decide

/-- C6 (amended): for every limit `len` (any `size_t` value), the value `r`
returned by `_read(STDIN_FILENO, buf, len)` satisfies `r <= len` and the call
changes no memory below the buffer or at or beyond position `len` of it; when
the call takes, and so stores, no more than `SSIZE_MAX` characters, `0 <= r`;
and whenever `0 <= r` the call writes buffer positions `0 .. r-1` only. -/
theorem read_bounds (L : Libc) (ptr len : Nat) (m : Machine)
    (hsz : len < 2 ^ L.size_bits) :
    (_read L L.STDIN_FILENO ptr len m).1 ≤ (len : Int) ∧
    (∀ a, a < ptr ∨ ptr + len ≤ a → (_read L L.STDIN_FILENO ptr len m).2.mem a = m.mem a) ∧
    ((_read L L.STDIN_FILENO ptr len m).2.taken - m.taken < 2 ^ (L.size_bits - 1) →
      0 ≤ (_read L L.STDIN_FILENO ptr len m).1) ∧
    (0 ≤ (_read L L.STDIN_FILENO ptr len m).1 →
      ∀ a, a < ptr ∨ ptr + ((_read L L.STDIN_FILENO ptr len m).1).toNat ≤ a →
        (_read L L.STDIN_FILENO ptr len m).2.mem a = m.mem a) := by
  have hle := scan_le m.tty m.taken len
  rw [read_stdin_eq]
  refine ⟨?_, ?_, ?_, ?_⟩
  · have := ssize_of_size_le L.size_bits (scan m.tty m.taken len)
    simp only
    omega
  · intro a ha
    have hout : ¬ (ptr ≤ a ∧ a < ptr + scan m.tty m.taken len) := by omega
    simp only [if_neg hout]
  · simp only [Nat.add_sub_cancel_left]
    intro hsmall
    rw [ssize_of_size_small _ _ hsmall]
    omega
  · simp only
    intro h0
    obtain ⟨_, he⟩ := ssize_of_size_nonneg L.size_bits (scan m.tty m.taken len) (by omega) h0
    rw [he]
    intro a ha
    have hout : ¬ (ptr ≤ a ∧ a < ptr + scan m.tty m.taken len) := by
      simp only [Int.toNat_ofNat] at ha
      omega
    simp only [if_neg hout]

theorem read_bounds_witness :
    (_read rv32 rv32.STDIN_FILENO 100 4294967295 (primed [97, 98, 13, 99, 100])).1 = 3 ∧
    (_read rv32 rv32.STDIN_FILENO 100 4294967295 (primed [97, 98, 13, 99, 100])).1 ≤
      ((4294967295 : Nat) : Int) ∧
    0 ≤ (_read rv32 rv32.STDIN_FILENO 100 4294967295 (primed [97, 98, 13, 99, 100])).1 ∧
    (_read rv32 rv32.STDIN_FILENO 100 4294967295 (primed [97, 98, 13, 99, 100])).2.mem 99 = 170 ∧
    (_read rv32 rv32.STDIN_FILENO 100 4294967295 (primed [97, 98, 13, 99, 100])).2.mem 102 = 10 ∧
    (_read rv32 rv32.STDIN_FILENO 100 4294967295 (primed [97, 98, 13, 99, 100])).2.mem 103 = 170 :=
  ⟨by decide,
   (read_bounds rv32 100 4294967295 (primed [97, 98, 13, 99, 100]) (by decide)).1,
   (read_bounds rv32 100 4294967295 (primed [97, 98, 13, 99, 100]) (by decide)).2.2.1 (by decide),
   (read_bounds rv32 100 4294967295 (primed [97, 98, 13, 99, 100]) (by decide)).2.2.2 (by decide)
     99 (by decide),
   by decide,
   (read_bounds rv32 100 4294967295 (primed [97, 98, 13, 99, 100]) (by decide)).2.2.2 (by decide)
     103 (by decide)⟩

/-- C7, as stated, fails for `int` values outside the byte range: when
`metal_tty_getc` delivers 269 (`0x10D`), the comparison with carriage return
fails and the cast stores byte 13, so the one byte returned is a carriage
return; when it delivers 266 (`0x10A`) and then `a`, byte 10 is stored at
position 0 of a two-byte result, a newline that is not the last byte. -/
theorem read_one_line_counterexample :
    (_read rv32 rv32.STDIN_FILENO 100 1 (boot [269])).1 = 1 ∧
    (_read rv32 rv32.STDIN_FILENO 100 1 (boot [269])).2.mem (100 + 0) = 13 ∧
    (_read rv32 rv32.STDIN_FILENO 100 2 (boot [266, 97])).1 = 2 ∧
    (_read rv32 rv32.STDIN_FILENO 100 2 (boot [266, 97])).2.mem (100 + 0) = 10 := by
  decide

/-- C7 (amended): for every limit `len` and every sequence of byte values
(`0 .. 255`) delivered by `metal_tty_getc`, the `r` bytes that
`_read(STDIN_FILENO, buf, len)` returns form at most one line: none of
`buf[0] .. buf[r-1]` is a carriage-return byte, and none of `buf[0] .. buf[r-2]`
is a newline byte. -/
theorem read_one_line (L : Libc) (ptr len : Nat) (m : Machine)
    (hbytes : ∀ j, 0 ≤ m.tty j ∧ m.tty j < 256) :
    ∀ j : Nat, (j : Int) < (_read L L.STDIN_FILENO ptr len m).1 →
      (_read L L.STDIN_FILENO ptr len m).2.mem (ptr + j) ≠ 13 ∧
      ((j : Int) + 1 < (_read L L.STDIN_FILENO ptr len m).1 →
        (_read L L.STDIN_FILENO ptr len m).2.mem (ptr + j) ≠ 10) := by
  intro j
  rw [read_stdin_eq]
  simp only
  intro hj
  have hle := ssize_of_size_le L.size_bits (scan m.tty m.taken len)
  have hin : ptr ≤ ptr + j ∧ ptr + j < ptr + scan m.tty m.taken len := by omega
  simp only [if_pos hin, Nat.add_sub_cancel_left]
  have hb := hbytes (m.taken + j)
  refine ⟨?_, ?_⟩
  · intro h13
    by_cases hc : m.tty (m.taken + j) = 13
    · rw [cr_to_nl, if_pos hc] at h13
      revert h13
      decide
    · rw [cr_to_nl, if_neg hc] at h13
      have := char_of_int_byte _ hb.1 hb.2
      rw [h13] at this
      exact hc this.symm
  · intro hj1 h10
    have hnt : ¬ is_term (m.tty (m.taken + j)) :=
      scan_no_term_before m.tty m.taken len j (by omega)
    have hc : ¬ (m.tty (m.taken + j) = 13) := fun h => hnt (Or.inl h)
    rw [cr_to_nl, if_neg hc] at h10
    have := char_of_int_byte _ hb.1 hb.2
    rw [h10] at this
    exact hnt (Or.inr this.symm)

theorem read_one_line_witness :
    (_read rv32 rv32.STDIN_FILENO 100 10 (boot [97, 98, 13, 99, 100])).1 = 3 ∧
    (_read rv32 rv32.STDIN_FILENO 100 10 (boot [97, 98, 13, 99, 100])).2.mem (100 + 0) ≠ 13 ∧
    (_read rv32 rv32.STDIN_FILENO 100 10 (boot [97, 98, 13, 99, 100])).2.mem (100 + 0) ≠ 10 ∧
    (_read rv32 rv32.STDIN_FILENO 100 10 (boot [97, 98, 13, 99, 100])).2.mem (100 + 2) ≠ 13 :=
  ⟨by decide,
   (read_one_line rv32 100 10 (boot [97, 98, 13, 99, 100]) tty_of_sample_bytes 0 (by decide)).1,
   (read_one_line rv32 100 10 (boot [97, 98, 13, 99, 100]) tty_of_sample_bytes 0 (by decide)).2
     (by decide),
   (read_one_line rv32 100 10 (boot [97, 98, 13, 99, 100]) tty_of_sample_bytes 2 (by decide)).1⟩

/-- C8, as stated, fails: on a 32-bit target, with a terminal that only delivers
the letter `a` and `len = 2^31`, the call takes `2^31` characters from the
terminal and returns `-2^31`. -/
theorem read_taken_counterexample :
    (_read rv32 rv32.STDIN_FILENO 0 2147483648 endless).1 = -2147483648 ∧
    (_read rv32 rv32.STDIN_FILENO 0 2147483648 endless).2.taken = endless.taken + 2147483648 := by
  rw [read_stdin_eq, scan_endless]
  exact ⟨ssize_wraps_32, rfl⟩

/-- C8 (amended): for every limit `len` (a `size_t` value) and every input sequence, a call
`_read(STDIN_FILENO, buf, len)` that returns `r >= 0` has taken exactly `r`
characters from the terminal, one per returned byte. The call takes the
characters up to and including the first line terminator when that one is among
the first `len`, and the first `len` characters otherwise; the characters after
them are left unread, the next `metal_tty_getc` delivering the first of them. -/
theorem read_taken (L : Libc) (ptr len : Nat) (m : Machine)
    (hsz : len < 2 ^ L.size_bits) :
    (0 ≤ (_read L L.STDIN_FILENO ptr len m).1 →
      ((_read L L.STDIN_FILENO ptr len m).2.taken : Int) =
        (m.taken : Int) + (_read L L.STDIN_FILENO ptr len m).1) ∧
    (_read L L.STDIN_FILENO ptr len m).2.tty = m.tty ∧
    (∀ k, k < len → is_term (m.tty (m.taken + k)) →
      (∀ j, j < k → ¬ is_term (m.tty (m.taken + j))) →
      (_read L L.STDIN_FILENO ptr len m).2.taken = m.taken + (k + 1) ∧
      (metal_tty_getc (_read L L.STDIN_FILENO ptr len m).2).1 = m.tty (m.taken + (k + 1))) ∧
    ((∀ j, j < len → ¬ is_term (m.tty (m.taken + j))) →
      (_read L L.STDIN_FILENO ptr len m).2.taken = m.taken + len ∧
      (metal_tty_getc (_read L L.STDIN_FILENO ptr len m).2).1 = m.tty (m.taken + len)) := by
  have hle := scan_le m.tty m.taken len
  rw [read_stdin_eq]
  refine ⟨?_, rfl, ?_, ?_⟩
  · simp only
    intro h0
    obtain ⟨_, he⟩ := ssize_of_size_nonneg L.size_bits (scan m.tty m.taken len) (by omega) h0
    rw [he]
    push_cast
    rfl
  · intro k hk hterm hleast
    have hs : scan m.tty m.taken len = k + 1 := scan_least m.tty m.taken len k hk hterm hleast
    constructor <;> simp only [metal_tty_getc, hs]
  · intro hnone
    have hs : scan m.tty m.taken len = len := scan_full m.tty m.taken len hnone
    constructor <;> simp only [metal_tty_getc, hs]

theorem read_taken_witness :
    (_read rv32 rv32.STDIN_FILENO 100 4294967295 (boot [97, 98, 13, 99, 100])).1 = 3 ∧
    ((_read rv32 rv32.STDIN_FILENO 100 4294967295 (boot [97, 98, 13, 99, 100])).2.taken : Int) =
      ((boot [97, 98, 13, 99, 100]).taken : Int) +
        (_read rv32 rv32.STDIN_FILENO 100 4294967295 (boot [97, 98, 13, 99, 100])).1 ∧
    (_read rv32 rv32.STDIN_FILENO 100 4294967295 (boot [97, 98, 13, 99, 100])).2.taken =
      (boot [97, 98, 13, 99, 100]).taken + (2 + 1) ∧
    (metal_tty_getc
        (_read rv32 rv32.STDIN_FILENO 100 4294967295 (boot [97, 98, 13, 99, 100])).2).1 =
      (boot [97, 98, 13, 99, 100]).tty ((boot [97, 98, 13, 99, 100]).taken + (2 + 1)) ∧
    (boot [97, 98, 13, 99, 100]).tty ((boot [97, 98, 13, 99, 100]).taken + (2 + 1)) = 99 ∧
    (_read rv32 rv32.STDIN_FILENO 100 2 (boot [97, 98, 13, 99, 100])).2.taken =
      (boot [97, 98, 13, 99, 100]).taken + 2 :=
  ⟨by decide,
   (read_taken rv32 100 4294967295 (boot [97, 98, 13, 99, 100]) (by decide)).1 (by decide),
   ((read_taken rv32 100 4294967295 (boot [97, 98, 13, 99, 100]) (by decide)).2.2.1 2
      (by decide) (by decide)
      (by
        intro j hj
        rcases j with _ | _ | j
        · decide
        · decide
        · omega)).1,
   ((read_taken rv32 100 4294967295 (boot [97, 98, 13, 99, 100]) (by decide)).2.2.1 2
      (by decide) (by decide)
      (by
        intro j hj
        rcases j with _ | _ | j
        · decide
        · decide
        · omega)).2,
   by decide,
   ((read_taken rv32 100 2 (boot [97, 98, 13, 99, 100]) (by decide)).2.2.2
      (by
        intro j hj
        rcases j with _ | _ | j
        · decide
        · decide
        · omega)).1⟩

/-- C10, as stated, fails: on a 32-bit target, with a terminal that only delivers
the letter `a` and `len = 2^31`, the call returns `r = -2^31`; position 0
satisfies `r <= 0`, yet it goes from 0 to 97. -/
theorem read_tail_counterexample :
    (_read rv32 rv32.STDIN_FILENO 0 2147483648 endless).1 ≤ ((0 : Nat) : Int) ∧
    (_read rv32 rv32.STDIN_FILENO 0 2147483648 endless).2.mem (0 + 0) ≠ endless.mem (0 + 0) := by
  rw [read_stdin_eq, scan_endless]
  have h : ssize_of_size rv32.size_bits 2147483648 = -2147483648 := ssize_wraps_32
  have hin : 0 ≤ 0 + 0 ∧ 0 + 0 < 0 + 2147483648 := by decide
  simp only [h, if_pos hin]
  decide

/-- C10 (amended): for every buffer, every limit `len` (a `size_t` value) and
every input sequence, a call `_read(STDIN_FILENO, buf, len)` that returns `r >= 0` leaves every buffer
position `j` with `r <= j` unchanged from its value before the call. -/
theorem read_tail (L : Libc) (ptr len : Nat) (m : Machine)
    (hsz : len < 2 ^ L.size_bits)
    (h0 : 0 ≤ (_read L L.STDIN_FILENO ptr len m).1) :
    ∀ j : Nat, (_read L L.STDIN_FILENO ptr len m).1 ≤ (j : Int) →
      (_read L L.STDIN_FILENO ptr len m).2.mem (ptr + j) = m.mem (ptr + j) := by
  intro j
  have hle := scan_le m.tty m.taken len
  rw [read_stdin_eq] at h0 ⊢
  simp only at h0 ⊢
  obtain ⟨_, he⟩ := ssize_of_size_nonneg L.size_bits (scan m.tty m.taken len) (by omega) h0
  rw [he]
  intro hj
  have hout : ¬ (ptr ≤ ptr + j ∧ ptr + j < ptr + scan m.tty m.taken len) := by omega
  simp only [if_neg hout]

theorem read_tail_witness :
    (_read rv32 rv32.STDIN_FILENO 100 4294967295 (primed [97, 98, 13, 99, 100])).1 = 3 ∧
    (_read rv32 rv32.STDIN_FILENO 100 4294967295 (primed [97, 98, 13, 99, 100])).2.mem (100 + 2) =
      10 ∧
    (primed [97, 98, 13, 99, 100]).mem (100 + 3) = 170 ∧
    (_read rv32 rv32.STDIN_FILENO 100 4294967295 (primed [97, 98, 13, 99, 100])).2.mem (100 + 3) =
      (primed [97, 98, 13, 99, 100]).mem (100 + 3) :=
  ⟨by decide, by decide, rfl,
   read_tail rv32 100 4294967295 (primed [97, 98, 13, 99, 100]) (by decide) (by decide) 3
     (by decide)⟩

/-! ## Successive calls -/

theorem block_read_eq (L : Libc) (ptr len : Nat) (m : Machine)
    (hsz : len < 2 ^ L.size_bits)
    (h0 : 0 ≤ (_read L L.STDIN_FILENO ptr len m).1) :
    block (_read L L.STDIN_FILENO ptr len m).2 ptr (_read L L.STDIN_FILENO ptr len m).1 =
      (List.range (scan m.tty m.taken len)).map
        (fun j => char_of_int (cr_to_nl (m.tty (m.taken + j)))) := by
  have hle := scan_le m.tty m.taken len
  rw [read_stdin_eq] at h0 ⊢
  simp only at h0
  obtain ⟨_, he⟩ := ssize_of_size_nonneg L.size_bits (scan m.tty m.taken len) (by omega) h0
  unfold block
  simp only
  rw [he]
  simp only [Int.toNat_ofNat]
  apply List.map_congr_left
  intro j hj
  have hj2 : j < scan m.tty m.taken len := List.mem_range.1 hj
  have hin : ptr ≤ ptr + j ∧ ptr + j < ptr + scan m.tty m.taken len := by omega
  simp only [if_pos hin, Nat.add_sub_cancel_left]

theorem read_calls_spec (L : Libc) (ptr len : Nat) (hsz : len < 2 ^ L.size_bits)
    (n : Nat) (m : Machine)
    (hnn : ∀ r, r ∈ read_results L ptr len n m → 0 ≤ r) :
    (read_calls L ptr len n m).2.tty = m.tty ∧
    m.taken ≤ (read_calls L ptr len n m).2.taken ∧
    (read_calls L ptr len n m).1.flatten =
      (List.range ((read_calls L ptr len n m).2.taken - m.taken)).map
        (fun j => char_of_int (cr_to_nl (m.tty (m.taken + j)))) := by
  induction n generalizing m with
  | zero => simp [read_calls]
  | succ n ih =>
    have hhead : 0 ≤ (_read L L.STDIN_FILENO ptr len m).1 :=
      hnn _ (by simp only [read_results, List.mem_cons, true_or])
    have htail : ∀ r, r ∈ read_results L ptr len n (_read L L.STDIN_FILENO ptr len m).2 → 0 ≤ r :=
      fun r hr => hnn r (by simp only [read_results, List.mem_cons, hr, or_true])
    have hb := block_read_eq L ptr len m hsz hhead
    have ih2 := ih (_read L L.STDIN_FILENO ptr len m).2 htail
    have htty : (_read L L.STDIN_FILENO ptr len m).2.tty = m.tty := by rw [read_stdin_eq]
    have htk : (_read L L.STDIN_FILENO ptr len m).2.taken = m.taken + scan m.tty m.taken len := by
      rw [read_stdin_eq]
    simp only [read_calls, List.flatten_cons]
    rw [htty, htk] at ih2
    obtain ⟨h1, h2, h3⟩ := ih2
    refine ⟨h1, by omega, ?_⟩
    rw [hb, h3]
    have e : (read_calls L ptr len n (_read L L.STDIN_FILENO ptr len m).2).2.taken - m.taken =
        scan m.tty m.taken len +
          ((read_calls L ptr len n (_read L L.STDIN_FILENO ptr len m).2).2.taken -
            (m.taken + scan m.tty m.taken len)) := by omega
    rw [e, List.range_add, List.map_append, List.map_map]
    congr 1
    apply List.map_congr_left
    intro j _
    simp only [Function.comp, Nat.add_assoc]

theorem byte_char_cr_to_nl (b : Nat) (hb : b < 256) :
    char_of_int (cr_to_nl (b : Int)) = byte_cr_to_nl b := by
  unfold cr_to_nl byte_cr_to_nl
  by_cases h : b = 13
  · subst h
    decide
  · have h2 : ¬ ((b : Int) = 13) := by omega
    rw [if_neg h, if_neg h2]
    have := char_of_int_byte (b : Int) (by omega) (by omega)
    exact_mod_cast this

theorem read_calls_one_fst (L : Libc) (ptr len : Nat) (m : Machine) :
    (read_calls L ptr len 1 m).1 =
      [block (_read L L.STDIN_FILENO ptr len m).2 ptr (_read L L.STDIN_FILENO ptr len m).1] :=
  rfl

theorem read_calls_one_snd (L : Libc) (ptr len : Nat) (m : Machine) :
    (read_calls L ptr len 1 m).2 = (_read L L.STDIN_FILENO ptr len m).2 := rfl

/-- C9, as stated, fails: on a 32-bit target, one call with `len = 2^31` on a
terminal that only delivers the letter `a` consumes exactly the `2^31` bytes of
the input `s` and returns `-2^31`, so the caller receives no byte at all: the
concatenation of the returned blocks is empty and differs from every `s` of
that length. -/
theorem read_calls_counterexample :
    1 ≤ 2147483648 ∧
    (read_calls rv32 0 2147483648 1 endless).2.taken = endless.taken + 2147483648 ∧
    (read_calls rv32 0 2147483648 1 endless).1.flatten = [] ∧
    ∀ s : List Nat, s.length = 2147483648 →
      (read_calls rv32 0 2147483648 1 endless).1.flatten ≠ s.map byte_cr_to_nl := by
  have hr : (_read rv32 rv32.STDIN_FILENO 0 2147483648 endless).1 = -2147483648 := by
    rw [read_stdin_eq, scan_endless]
    exact ssize_wraps_32
  have htk : (_read rv32 rv32.STDIN_FILENO 0 2147483648 endless).2.taken =
      endless.taken + 2147483648 := by
    rw [read_stdin_eq, scan_endless]
  have hnil : (read_calls rv32 0 2147483648 1 endless).1.flatten = [] := by
    rw [read_calls_one_fst, hr]
    rfl
  refine ⟨by decide, ?_, hnil, ?_⟩
  · rw [read_calls_one_snd]
    exact htk
  · intro s hs h
    rw [hnil] at h
    have hl := congrArg List.length h
    simp only [List.length_nil, List.length_map, hs] at hl
    omega

/-- C9 (amended): for every limit `len >= 1` (a `size_t` value) and every finite
sequence of input bytes `s`, if successive calls `_read(STDIN_FILENO, buf, len)` are made until `s`
is consumed exactly and each of them returns a value `r >= 0`, then the
concatenation of the byte blocks returned by those calls equals `s` with every
carriage-return byte replaced by a newline byte. -/
theorem read_calls_concat (L : Libc) (ptr len n : Nat) (m : Machine) (s : List Nat)
    (_hlen : 1 ≤ len)
    (hsz : len < 2 ^ L.size_bits)
    (hbytes : ∀ b, b ∈ s → b < 256)
    (hinput : ∀ j, ∀ h : j < s.length, m.tty (m.taken + j) = ((s.get ⟨j, h⟩ : Nat) : Int))
    (hdone : (read_calls L ptr len n m).2.taken = m.taken + s.length)
    (hnn : ∀ r, r ∈ read_results L ptr len n m → 0 ≤ r) :
    (read_calls L ptr len n m).1.flatten = s.map byte_cr_to_nl := by
  obtain ⟨_, _, h3⟩ := read_calls_spec L ptr len hsz n m hnn
  rw [h3, hdone, Nat.add_sub_cancel_left]
  apply List.ext_get
  · simp
  · intro j h1 h2
    have hj : j < s.length := by simpa using h2
    simp only [List.get_eq_getElem, List.getElem_map, List.getElem_range]
    have := hinput j hj
    simp only [List.get_eq_getElem] at this
    rw [this]
    exact byte_char_cr_to_nl _ (hbytes _ (List.getElem_mem _))

theorem read_calls_concat_witness :
    read_results rv32 100 4294967295 2 (boot [97, 98, 13, 99, 100, 10]) = [3, 3] ∧
    (read_calls rv32 100 4294967295 2 (boot [97, 98, 13, 99, 100, 10])).1.flatten =
      [97, 98, 10, 99, 100, 10] := by
  have h := read_calls_concat rv32 100 4294967295 2 (boot [97, 98, 13, 99, 100, 10])
    [97, 98, 13, 99, 100, 10]
    (by decide) (by decide) (by decide)
    (by
      intro j h
      rcases j with _ | _ | _ | _ | _ | _ | j
      · rfl
      · rfl
      · rfl
      · rfl
      · rfl
      · rfl
      · exact absurd h (by simp))
    (by decide) (by decide)
  exact ⟨by decide, by simpa [byte_cr_to_nl] using h⟩

/-! ## The claims about `mee/cpu.h` -/

theorem sample_populated : populated sample_vtable := by
  simp [populated, sample_vtable]

/-- C1: for a hart handle whose capability table has all sixteen bindings
populated, and for every choice of arguments and every state of the world, each
`mee_cpu_*` wrapper returns exactly what its table binding returns when applied
to the same handle and the same arguments in the same order, and leaves the
world exactly as that binding leaves it. -/
theorem wrappers_delegate {W : Type} (H : Handles W) (cpu : Nat) (vt : mee_cpu_vtable W)
    (hvt : vtable_at H cpu = some vt) (hpop : populated vt)
    (hartid ecode : Int) (tv tb time handler epc : Nat) (w : W) :
    (∃ f, vt.timer_get = some f ∧
      mee_cpu_get_timer H cpu hartid tv w = some (f cpu hartid tv w)) ∧
    (∃ f, vt.timebase_get = some f ∧
      mee_cpu_get_timebase H cpu tb w = some (f cpu tb w)) ∧
    (∃ f, vt.mtime_get = some f ∧
      mee_cpu_get_mtime H cpu w = some (f cpu w)) ∧
    (∃ f, vt.mtimecmp_set = some f ∧
      mee_cpu_set_mtimecmp H cpu time w = some (f cpu time w)) ∧
    (∃ f, vt.tmr_controller_interrupt = some f ∧
      mee_cpu_timer_interrupt_controller H cpu w = some (f cpu w)) ∧
    (∃ f, vt.get_tmr_interrupt_id = some f ∧
      mee_cpu_timer_get_interrupt_id H cpu w = some (f cpu w)) ∧
    (∃ f, vt.sw_controller_interrupt = some f ∧
      mee_cpu_software_interrupt_controller H cpu w = some (f cpu w)) ∧
    (∃ f, vt.get_sw_interrupt_id = some f ∧
      mee_cpu_software_get_interrupt_id H cpu w = some (f cpu w)) ∧
    (∃ f, vt.set_sw_ipi = some f ∧
      mee_cpu_software_set_ipi H cpu hartid w = some (f cpu hartid w)) ∧
    (∃ f, vt.clear_sw_ipi = some f ∧
      mee_cpu_software_clear_ipi H cpu hartid w = some (f cpu hartid w)) ∧
    (∃ f, vt.get_msip = some f ∧
      mee_cpu_get_msip H cpu hartid w = some (f cpu hartid w)) ∧
    (∃ f, vt.controller_interrupt = some f ∧
      mee_cpu_interrupt_controller H cpu w = some (f cpu w)) ∧
    (∃ f, vt.exception_register = some f ∧
      mee_cpu_exception_register H cpu ecode handler w = some (f cpu ecode handler w)) ∧
    (∃ f, vt.get_ilen = some f ∧
      mee_cpu_get_instruction_length H cpu epc w = some (f cpu epc w)) ∧
    (∃ f, vt.get_epc = some f ∧
      mee_cpu_get_exception_pc H cpu w = some (f cpu w)) ∧
    (∃ f, vt.set_epc = some f ∧
      mee_cpu_set_exception_pc H cpu epc w = some (f cpu epc w)) := by
  obtain ⟨h1, h2, h3, h4, h5, h6, h7, h8, h9, h10, h11, h12, h13, h14, h15, h16⟩ := hpop
  obtain ⟨f1, e1⟩ := Option.isSome_iff_exists.1 h1
  obtain ⟨f2, e2⟩ := Option.isSome_iff_exists.1 h2
  obtain ⟨f3, e3⟩ := Option.isSome_iff_exists.1 h3
  obtain ⟨f4, e4⟩ := Option.isSome_iff_exists.1 h4
  obtain ⟨f5, e5⟩ := Option.isSome_iff_exists.1 h5
  obtain ⟨f6, e6⟩ := Option.isSome_iff_exists.1 h6
  obtain ⟨f7, e7⟩ := Option.isSome_iff_exists.1 h7
  obtain ⟨f8, e8⟩ := Option.isSome_iff_exists.1 h8
  obtain ⟨f9, e9⟩ := Option.isSome_iff_exists.1 h9
  obtain ⟨f10, e10⟩ := Option.isSome_iff_exists.1 h10
  obtain ⟨f11, e11⟩ := Option.isSome_iff_exists.1 h11
  obtain ⟨f12, e12⟩ := Option.isSome_iff_exists.1 h12
  obtain ⟨f13, e13⟩ := Option.isSome_iff_exists.1 h13
  obtain ⟨f14, e14⟩ := Option.isSome_iff_exists.1 h14
  obtain ⟨f15, e15⟩ := Option.isSome_iff_exists.1 h15
  obtain ⟨f16, e16⟩ := Option.isSome_iff_exists.1 h16
  refine ⟨⟨f1, e1, ?_⟩, ⟨f2, e2, ?_⟩, ⟨f3, e3, ?_⟩, ⟨f4, e4, ?_⟩, ⟨f5, e5, ?_⟩, ⟨f6, e6, ?_⟩,
    ⟨f7, e7, ?_⟩, ⟨f8, e8, ?_⟩, ⟨f9, e9, ?_⟩, ⟨f10, e10, ?_⟩, ⟨f11, e11, ?_⟩, ⟨f12, e12, ?_⟩,
    ⟨f13, e13, ?_⟩, ⟨f14, e14, ?_⟩, ⟨f15, e15, ?_⟩, ⟨f16, e16, ?_⟩⟩
  · simp only [mee_cpu_get_timer, hvt, e1]
  · simp only [mee_cpu_get_timebase, hvt, e2]
  · simp only [mee_cpu_get_mtime, hvt, e3]
  · simp only [mee_cpu_set_mtimecmp, hvt, e4]
  · simp only [mee_cpu_timer_interrupt_controller, hvt, e5]
  · simp only [mee_cpu_timer_get_interrupt_id, hvt, e6]
  · simp only [mee_cpu_software_interrupt_controller, hvt, e7]
  · simp only [mee_cpu_software_get_interrupt_id, hvt, e8]
  · simp only [mee_cpu_software_set_ipi, hvt, e9]
  · simp only [mee_cpu_software_clear_ipi, hvt, e10]
  · simp only [mee_cpu_get_msip, hvt, e11]
  · simp only [mee_cpu_interrupt_controller, hvt, e12]
  · simp only [mee_cpu_exception_register, hvt, e13]
  · simp only [mee_cpu_get_instruction_length, hvt, e14]
  · simp only [mee_cpu_get_exception_pc, hvt, e15]
  · simp only [mee_cpu_set_exception_pc, hvt, e16]

theorem wrappers_delegate_witness :
    vtable_at sample_handles 4096 = some sample_vtable ∧
    mee_cpu_get_timer sample_handles 4096 2 5 0 = some (4103, 1) ∧
    mee_cpu_get_msip sample_handles 4096 2 0 = some (4, 11) ∧
    mee_cpu_set_exception_pc sample_handles 4096 64 0 = some (64, 16) := by
  have h := wrappers_delegate sample_handles 4096 sample_vtable rfl sample_populated
    2 3 5 6 7 8 64 0
  obtain ⟨⟨f1, e1, r1⟩, _, _, _, _, _, _, _, _, _, ⟨f11, e11, r11⟩, _, _, _, _, ⟨f16, e16, r16⟩⟩ := h
  have g1 := Option.some.inj e1
  have g11 := Option.some.inj e11
  have g16 := Option.some.inj e16
  subst g1 g11 g16
  exact ⟨rfl, r1, r11, r16⟩

/-- C5: for every valid hart id `h`, two successive calls `mee_cpu_get(h)` return
the same handle, and the capability table bound to that handle is the same
after either call as before them (the registry lookup changes nothing). -/
theorem mee_cpu_get_idempotent {W : Type} (b : Board W) (h : Int) (hv : valid_hart b h) :
    ∃ p, (mee_cpu_get b h).1 = some p ∧
      (mee_cpu_get (mee_cpu_get b h).2 h).1 = some p ∧
      vtable_at (mee_cpu_get b h).2.handles p = vtable_at b.handles p ∧
      vtable_at (mee_cpu_get (mee_cpu_get b h).2 h).2.handles p = vtable_at b.handles p := by
  obtain ⟨h0, hlt⟩ := hv
  refine ⟨b.harts.get ⟨h.toNat, hlt⟩, ?_, ?_, rfl, rfl⟩
  · simp only [mee_cpu_get, if_pos h0]
    exact List.get?_eq_get hlt
  · simp only [mee_cpu_get, if_pos h0]
    exact List.get?_eq_get hlt

theorem mee_cpu_get_idempotent_witness :
    ∃ p, (mee_cpu_get sample_board 1).1 = some p ∧
      (mee_cpu_get (mee_cpu_get sample_board 1).2 1).1 = some p ∧
      vtable_at (mee_cpu_get sample_board 1).2.handles p = vtable_at sample_board.handles p ∧
      vtable_at (mee_cpu_get (mee_cpu_get sample_board 1).2 1).2.handles p =
        vtable_at sample_board.handles p :=
  mee_cpu_get_idempotent sample_board 1 ⟨by decide, by decide⟩

